import Mathlib

/-!
Shallow embedding of the Prosperity-3 trading engine (run.py, Run2.0.py,
run3.py, run5.py, Run7.py) and proofs about its order generation, fair-value
estimation, history tracking and position-limit handling.

Conventions, following the repository's `datamodel`:
* an order book side is an association list `List (ℤ × ℤ)` of
  `(price, quantity)` levels with distinct prices; buy quantities are
  positive, sell quantities are negative;
* Python floats are modelled as exact rationals `ℚ` (reals `ℝ` where the
  code applies the transcendental `exp`);
* Python's `max(dict.keys())`/`min(dict.keys())` with the `if not x`
  truthiness guard is modelled by `maxKeyD`/`minKeyD` with default `0`;
* Python's `//` (floor division) is `Int.fdiv`, and `round` (banker's
  rounding, half to even) is `pyRound`.
-/

/-- An order as in `datamodel.Order`, for a fixed instrument:
`(price, signed quantity)`, positive quantity = buy, negative = sell. -/
structure Order where
  price : ℤ
  quantity : ℤ
deriving DecidableEq

/-- `max(keys)` of an association list, with a default for the empty book
(Python: `max(d.keys()) if d else 0`). -/
def maxKeyD (xs : List (ℤ × ℤ)) (d : ℤ) : ℤ :=
  match xs with
  | [] => d
  | x :: rest => (rest.map Prod.fst).foldl max x.1

/-- `min(keys)` of an association list, with a default for the empty book. -/
def minKeyD (xs : List (ℤ × ℤ)) (d : ℤ) : ℤ :=
  match xs with
  | [] => d
  | x :: rest => (rest.map Prod.fst).foldl min x.1

/-- Dictionary lookup `d[k]` with a default (in the embedded code paths the
key is always present). -/
def lookupD : List (ℤ × ℤ) → ℤ → ℤ → ℤ
  | [], _, d => d
  | (p, q) :: rest, k, d => if p = k then q else lookupD rest k d

/-- Python's `round`: round half to even (banker's rounding), as applied by
`run.py` to the quote prices. -/
def pyRound (q : ℚ) : ℤ :=
  if q - ⌊q⌋ < 1/2 then ⌊q⌋
  else if 1/2 < q - ⌊q⌋ then ⌊q⌋ + 1
  else if ⌊q⌋ % 2 = 0 then ⌊q⌋ else ⌊q⌋ + 1

/-- Sum of the signed quantities of a list of orders. -/
def sumQ (os : List Order) : ℤ := (os.map Order.quantity).sum

/-- Per-instrument rolling history, `run.py` `historical_data[product]`:
mid-prices, spreads and total traded volumes.  (The float volatility
statistic derived from `prices` is threaded to order generation as an
explicit parameter instead of being stored here.) -/
structure Hist where
  prices : List ℚ
  spreads : List ℤ
  volumes : List ℤ
deriving DecidableEq

/-- Total traded volume of a snapshot: sum of absolute quantities across all
price levels on both sides (`run.py` lines 89-90). -/
def totalVolume (b s : List (ℤ × ℤ)) : ℤ :=
  (b.map (fun x => |x.2|)).sum + (s.map (fun x => |x.2|)).sum

/-- `Trader.update_historical_data` of `run.py` (lines 69-91), for one
product: append mid-price and spread only when both sides are non-empty
(Python truthiness: best bid and best ask both nonzero), always append the
total volume. -/
def update_historical_data (h : Hist) (b s : List (ℤ × ℤ)) : Hist :=
  let best_bid := maxKeyD b 0
  let best_ask := minKeyD s 0
  let h1 :=
    if best_bid ≠ 0 ∧ best_ask ≠ 0 then
      { h with prices := h.prices ++ [((best_bid : ℚ) + (best_ask : ℚ)) / 2],
               spreads := h.spreads ++ [best_ask - best_bid] }
    else h
  { h1 with volumes := h1.volumes ++ [totalVolume b s] }

/-- `Trader.calculate_vwap` of `run.py` (lines 93-106): accumulate
`price * volume` over the buy side (buy volumes are positive by the book
convention) and `price * abs(volume)` over the sell side, and divide by the
accumulated volume, returning `0` on zero volume. -/
def calculate_vwap (b s : List (ℤ × ℤ)) : ℚ :=
  let total_value : ℤ := (b.map (fun x => x.1 * x.2)).sum
    + (s.map (fun x => x.1 * |x.2|)).sum
  let total_volume : ℤ := (b.map (fun x => x.2)).sum
    + (s.map (fun x => |x.2|)).sum
  if total_volume = 0 then 0 else (total_value : ℚ) / (total_volume : ℚ)

/-- Market-making buy size of `run.py` `generate_orders` (lines 161-170):
base size `min(5, max_buy)` with `max_buy = limit - pos`, halved (floor 1)
when `position_ratio > 0.5`. -/
def mm_buy_size (pos limit : ℤ) : ℤ :=
  if 1/2 < (pos : ℚ) / (limit : ℚ) then max 1 ((min 5 (limit - pos)).fdiv 2)
  else min 5 (limit - pos)

/-- Market-making sell size of `run.py` `generate_orders` (lines 161-170):
base size `min(5, max_sell)` with `max_sell = limit + pos`, halved (floor 1)
in the `elif position_ratio < -0.5` branch. -/
def mm_sell_size (pos limit : ℤ) : ℤ :=
  if ¬ 1/2 < (pos : ℚ) / (limit : ℚ) ∧ (pos : ℚ) / (limit : ℚ) < -(1/2) then
    max 1 ((min 5 (limit + pos)).fdiv 2)
  else min 5 (limit + pos)

/-- Market-making bid price of `run.py` `generate_orders` (lines 150-158):
`round(fair_value - volatility * 0.5)` clamped to `best_bid + 1`. -/
def my_bid_price (fair vol : ℚ) (best_bid : ℤ) : ℤ :=
  min (pyRound (fair - vol * (1/2))) (best_bid + 1)

/-- Market-making ask price of `run.py` `generate_orders` (lines 150-159):
`round(fair_value + volatility * 0.5)` clamped to `best_ask - 1`. -/
def my_ask_price (fair vol : ℚ) (best_ask : ℤ) : ℤ :=
  max (pyRound (fair + vol * (1/2))) (best_ask - 1)

/-- The market-making block of `run.py` `generate_orders` (lines 145-176):
active only with more than 5 stored mid-prices; emits the bid if
`max_buy > 0` and the ask if `max_sell > 0`. -/
def mm_orders (fair vol : ℚ) (best_bid best_ask pos limit : ℤ)
    (pricesLen : ℕ) : List Order :=
  if 5 < pricesLen then
    (if 0 < limit - pos then
      [Order.mk (my_bid_price fair vol best_bid) (mm_buy_size pos limit)]
     else []) ++
    (if 0 < limit + pos then
      [Order.mk (my_ask_price fair vol best_ask) (-(mm_sell_size pos limit))]
     else [])
  else []

/-- The "buy undervalued" arbitrage of `run.py` `generate_orders`
(lines 179-182): take the full resting best-ask quantity, capped by
`max_buy`, when `best_ask < fair_value * 0.999`. -/
def arb_buy_orders (fair : ℚ) (best_ask : ℤ) (s : List (ℤ × ℤ))
    (pos limit : ℤ) : List Order :=
  if (best_ask : ℚ) < fair * (999/1000) ∧ 0 < limit - pos then
    [Order.mk best_ask (min (-(lookupD s best_ask 0)) (limit - pos))]
  else []

/-- The "sell overvalued" arbitrage of `run.py` `generate_orders`
(lines 184-187): hit the full resting best-bid quantity, capped by
`max_sell`, when `best_bid > fair_value * 1.001`. -/
def arb_sell_orders (fair : ℚ) (best_bid : ℤ) (b : List (ℤ × ℤ))
    (pos limit : ℤ) : List Order :=
  if fair * (1001/1000) < (best_bid : ℚ) ∧ 0 < limit + pos then
    [Order.mk best_bid (-(min (lookupD b best_bid 0) (limit + pos)))]
  else []

/-- `Trader.generate_orders` of `run.py` (lines 125-189) for one product:
empty on a one-sided book (Python truthiness of the best prices), otherwise
the market-making orders followed by the two liquidity-taking arbitrage
orders, appended to one list. -/
def generate_orders (b s : List (ℤ × ℤ)) (pricesLen : ℕ) (vol fair : ℚ)
    (pos limit : ℤ) : List Order :=
  let best_bid := maxKeyD b 0
  let best_ask := minKeyD s 0
  if best_bid = 0 ∨ best_ask = 0 then []
  else
    mm_orders fair vol best_bid best_ask pos limit pricesLen ++
    arb_buy_orders fair best_ask s pos limit ++
    arb_sell_orders fair best_bid b pos limit

/-- The products involved in the Run2.0.py basket logic. -/
inductive Pr where
  | CROISSANT
  | JAM
  | DJEMBE
  | PICNIC_BASKET1
  | PICNIC_BASKET2
deriving DecidableEq

/-- `Trader.calculate_basket_fair_values` of `Run2.0.py` (lines 145-160):
overwrite a basket's fair value with the linear combination of its
components' fair values whenever all components are present in the
`fair_values` dictionary; otherwise the dictionary entry is not touched. -/
def calculate_basket_fair_values (fv : Pr → Option ℚ) : Pr → Option ℚ :=
  fun p =>
    match p with
    | .PICNIC_BASKET1 =>
      match fv .CROISSANT, fv .JAM, fv .DJEMBE with
      | some a, some b, some c => some (6 * a + 3 * b + c)
      | _, _, _ => fv .PICNIC_BASKET1
    | .PICNIC_BASKET2 =>
      match fv .CROISSANT, fv .JAM with
      | some a, some b => some (4 * a + 2 * b)
      | _, _ => fv .PICNIC_BASKET2
    | p => fv p

/-- `Trader.generate_basket_arbitrage_orders` of `Run2.0.py`
(lines 162-200): both divergence branches (0.5% band, both baskets) are
`pass` in the source, so the order dictionary built here stays empty. -/
def generate_basket_arbitrage_orders (fv : Pr → Option ℚ) :
    List (Pr × List Order) :=
  let orders : List (Pr × List Order) := []
  let orders1 :=
    match fv .PICNIC_BASKET1, fv .CROISSANT, fv .JAM, fv .DJEMBE with
    | some basket1_value, some a, some b, some c =>
      if basket1_value > (6 * a + 3 * b + c) * (1005/1000) then orders
      else if basket1_value < (6 * a + 3 * b + c) * (995/1000) then orders
      else orders
    | _, _, _, _ => orders
  let orders2 :=
    match fv .PICNIC_BASKET2, fv .CROISSANT, fv .JAM with
    | some basket2_value, some a, some b =>
      if basket2_value > (4 * a + 2 * b) * (1005/1000) then orders1
      else if basket2_value < (4 * a + 2 * b) * (995/1000) then orders1
      else orders1
    | _, _, _ => orders1
  orders2

/-- `run3.py` line 32: `time_left = 7 - int(state.timestamp / 100000)`
(timestamps are natural, so `int(...)` truncation is floor division). -/
def run3_time_left (timestamp : ℕ) : ℤ := 7 - ((timestamp / 100000 : ℕ) : ℤ)

/-- `run3.py` lines 63-65: voucher fair value
`max(0, rock_price - strike) * max(0.2, time_left / 7)`. -/
def run3_fair_value (timestamp : ℕ) (rock_price : ℚ) (strike : ℤ) : ℚ :=
  max 0 (rock_price - (strike : ℚ)) *
    max (1/5) ((run3_time_left timestamp : ℚ) / 7)

/-- The decay factor of `run3.py` as a function of the remaining time
(the spec side of the option-decay formula). -/
def decay_of_time_left (t : ℤ) : ℚ := max (1/5) ((t : ℚ) / 7)

/-- `Trader.calculate_fair_value` of `Run7.py` (lines 85-89):
`max(0, spot - strike) * (tte / 7) ** 1.5 + 5`.  The real power
`(tte / 7) ** 1.5` is not rational, so it is abstracted as the parameter
`time_value`; the properties proved below do not depend on its value (the
fixed premium `+ 5` is added regardless). -/
def run7_calculate_fair_value (spot : ℚ) (strike : ℤ) (time_value : ℚ) : ℚ :=
  max 0 (spot - (strike : ℚ)) * time_value + 5

/-- `Trader.log_price` of `Run7.py` (lines 96-101): append, then keep only
the most recent 300 entries. -/
def log_price (history : List ℚ) (price : ℚ) : List ℚ :=
  let h := history ++ [price]
  if 300 < h.length then h.drop (h.length - 300) else h

/-- A fixed two-sided snapshot iterated through `run.py`
`update_historical_data`, starting from empty history: exhibits the
unbounded growth of that file's history lists. -/
def upd_iter : ℕ → Hist
  | 0 => ⟨[], [], []⟩
  | n + 1 => update_historical_data (upd_iter n) [(10, 5)] [(11, -5)]

/-- The buy loop of `run5.py` `Trader.run` (lines 62-71): walk the asks in
increasing price order, breaking when the price reaches
`fair_price - safety_margin` or the simulated position reaches the limit;
each emitted order advances the simulated position. -/
def run5_buy_walk (fair margin : ℚ) (limit : ℤ) :
    List (ℤ × ℤ) → ℤ → List Order × ℤ
  | [], pos => ([], pos)
  | (ask_price, ask_qty) :: rest, pos =>
    if fair - margin ≤ (ask_price : ℚ) ∨ limit ≤ pos then ([], pos)
    else if 0 < min (limit - pos) (-ask_qty) then
      (Order.mk ask_price (min (limit - pos) (-ask_qty)) ::
        (run5_buy_walk fair margin limit rest
          (pos + min (limit - pos) (-ask_qty))).1,
       (run5_buy_walk fair margin limit rest
          (pos + min (limit - pos) (-ask_qty))).2)
    else run5_buy_walk fair margin limit rest pos

/-- The sell loop of `run5.py` `Trader.run` (lines 73-80): walk the bids in
decreasing price order, breaking when the price reaches
`fair_price + safety_margin` or the simulated position reaches `-limit`. -/
def run5_sell_walk (fair margin : ℚ) (limit : ℤ) :
    List (ℤ × ℤ) → ℤ → List Order × ℤ
  | [], pos => ([], pos)
  | (bid_price, bid_qty) :: rest, pos =>
    if (bid_price : ℚ) ≤ fair + margin ∨ pos ≤ -limit then ([], pos)
    else if 0 < min (limit + pos) bid_qty then
      (Order.mk bid_price (-(min (limit + pos) bid_qty)) ::
        (run5_sell_walk fair margin limit rest
          (pos - min (limit + pos) bid_qty)).1,
       (run5_sell_walk fair margin limit rest
          (pos - min (limit + pos) bid_qty)).2)
    else run5_sell_walk fair margin limit rest pos

/-- The per-voucher order list of `run5.py` `Trader.run`: the buy walk over
the sorted asks followed by the sell walk over the reverse-sorted bids,
sharing the simulated position. -/
def run5_voucher_orders (fair margin : ℚ) (limit : ℤ)
    (asksSorted bidsSortedDesc : List (ℤ × ℤ)) (pos : ℤ) : List Order :=
  (run5_buy_walk fair margin limit asksSorted pos).1 ++
  (run5_sell_walk fair margin limit bidsSortedDesc
    (run5_buy_walk fair margin limit asksSorted pos).2).1

/-- `np.linspace a b n`: `n` evenly spaced points from `a` to `b` inclusive
(for `n = 1` numpy yields `[a]`; division by zero in `ℚ` yields `0`, giving
the same value). -/
def linspaceQ (a b : ℚ) (n : ℕ) : List ℚ :=
  (List.range n).map (fun k : ℕ => a + (b - a) * (k : ℚ) / ((n : ℚ) - 1))

/-- `np.dot` of two equal-length vectors. -/
noncomputable def dotR (xs ys : List ℝ) : ℝ :=
  ((xs.zip ys).map (fun p => p.1 * p.2)).sum

/-- `Trader.calculate_bananas_fair_value` of `run.py` (lines 113-123):
with non-empty history the fair value is the dot product of the stored
mid-prices with `np.exp(np.linspace(0, 1, len(prices)))`, normalized to sum
to 1 — exponential weighting for every history length.  Mid-prices are
modelled as reals because `np.exp` is transcendental. -/
noncomputable def run_calculate_bananas_fair_value (prices : List ℝ)
    (vwap_fallback : ℝ) : ℝ :=
  if prices = [] then vwap_fallback
  else
    let weights := (linspaceQ 0 1 prices.length).map (fun x : ℚ => Real.exp (x : ℝ))
    dotR prices (weights.map (fun w => w / weights.sum))

/-- `Trader.calculate_bananas_fair_value` of `Run2.0.py` (lines 130-143):
uniform weights (`np.ones`) below 5 observations, otherwise
`np.exp(np.linspace(0, 2, len(prices)))`, normalized to sum to 1. -/
noncomputable def run2_calculate_bananas_fair_value (prices : List ℝ)
    (vwap_fallback : ℝ) : ℝ :=
  if prices = [] then vwap_fallback
  else
    let weights :=
      if prices.length < 5 then List.replicate prices.length (1 : ℝ)
      else (linspaceQ 0 2 prices.length).map (fun x : ℚ => Real.exp (x : ℝ))
    dotR prices (weights.map (fun w => w / weights.sum))

/-- A `fair_values` dictionary state with the basket present but a component
missing, as produced by `Run2.0.py` `run` when `PICNIC_BASKET1` is in
`order_depths` (its VWAP is assigned in the first loop) but `CROISSANT`
has never been priced. -/
def stale_fv : Pr → Option ℚ := fun p =>
  match p with
  | .PICNIC_BASKET1 => some 999
  | _ => none

/-- A `fair_values` dictionary with all basket components resolved. -/
def basket_fv_example : Pr → Option ℚ := fun p =>
  match p with
  | .CROISSANT => some 100
  | .JAM => some 200
  | .DJEMBE => some 50
  | _ => none

/-! ## Helper lemmas -/

theorem lookupD_nonpos {s : List (ℤ × ℤ)} (hs : ∀ x ∈ s, x.2 ≤ 0) (k : ℤ) :
    lookupD s k 0 ≤ 0 := by
  induction s with
  | nil => simp [lookupD]
  | cons hd tl ih =>
    simp only [lookupD]
    split_ifs
    · exact hs hd (List.mem_cons_self hd tl)
    · exact ih (fun x hx => hs x (List.mem_cons_of_mem hd hx))

theorem lookupD_nonneg {b : List (ℤ × ℤ)} (hb : ∀ x ∈ b, 0 ≤ x.2) (k : ℤ) :
    0 ≤ lookupD b k 0 := by
  induction b with
  | nil => simp [lookupD]
  | cons hd tl ih =>
    simp only [lookupD]
    split_ifs
    · exact hb hd (List.mem_cons_self hd tl)
    · exact ih (fun x hx => hb x (List.mem_cons_of_mem hd hx))

theorem fdiv_two_le_self {a : ℤ} (ha : 0 ≤ a) : a.fdiv 2 ≤ a := by
  rw [Int.fdiv_eq_ediv _ (by norm_num)]
  exact Int.ediv_le_self 2 ha

theorem mm_buy_size_bounds {pos limit : ℤ} (h : 0 < limit - pos) :
    1 ≤ mm_buy_size pos limit ∧ mm_buy_size pos limit ≤ limit - pos := by
  have hb0 : (1 : ℤ) ≤ min 5 (limit - pos) := le_min (by norm_num) h
  have hb1 : min 5 (limit - pos) ≤ limit - pos := min_le_right _ _
  unfold mm_buy_size
  split_ifs
  · exact ⟨le_max_left _ _,
      max_le h (le_trans (fdiv_two_le_self (le_trans zero_le_one hb0)) hb1)⟩
  · exact ⟨hb0, hb1⟩

theorem mm_sell_size_bounds {pos limit : ℤ} (h : 0 < limit + pos) :
    1 ≤ mm_sell_size pos limit ∧ mm_sell_size pos limit ≤ limit + pos := by
  have hb0 : (1 : ℤ) ≤ min 5 (limit + pos) := le_min (by norm_num) h
  have hb1 : min 5 (limit + pos) ≤ limit + pos := min_le_right _ _
  unfold mm_sell_size
  split_ifs
  · exact ⟨le_max_left _ _,
      max_le h (le_trans (fdiv_two_le_self (le_trans zero_le_one hb0)) hb1)⟩
  · exact ⟨hb0, hb1⟩

/-! ## Claim C3: VWAP -/

/-- Claim C3: for every order-book snapshot (buy quantities nonnegative, per
the book convention), `calculate_vwap` returns the volume-weighted average
`Σ(price * abs(qty)) / Σ abs(qty)` over all bid and ask levels, and exactly
`0` when the total absolute volume is zero. -/
theorem calculate_vwap_spec (b s : List (ℤ × ℤ)) (hb : ∀ x ∈ b, 0 ≤ x.2) :
    calculate_vwap b s =
      if ((b.map (fun x => |x.2|)).sum + (s.map (fun x => |x.2|)).sum : ℤ) = 0
      then 0
      else (((b.map (fun x => x.1 * |x.2|)).sum
              + (s.map (fun x => x.1 * |x.2|)).sum : ℤ) : ℚ)
           / (((b.map (fun x => |x.2|)).sum
              + (s.map (fun x => |x.2|)).sum : ℤ) : ℚ) := by
  have h1 : b.map (fun x => x.1 * x.2) = b.map (fun x => x.1 * |x.2|) :=
    List.map_congr_left (fun x hx => by rw [abs_of_nonneg (hb x hx)])
  have h2 : b.map (fun x => x.2) = b.map (fun x => |x.2|) :=
    List.map_congr_left (fun x hx => (abs_of_nonneg (hb x hx)).symm)
  simp only [calculate_vwap, h1, h2]

/-- Witness for C3: the snapshot with bids `{10:5, 9:3}` and asks `{11:-4}`
has VWAP `121/12`, and the empty snapshot has VWAP `0`. -/
theorem calculate_vwap_spec_witness :
    calculate_vwap [(10, 5), (9, 3)] [(11, -4)] = 121 / 12 ∧
    calculate_vwap [] [] = 0 := by
  constructor
  · rw [calculate_vwap_spec [(10, 5), (9, 3)] [(11, -4)] (by decide)]
    norm_num
  · rw [calculate_vwap_spec [] [] (by decide)]
    norm_num

/-! ## Claim C4: one-sided book -/

/-- Claim C4: for an instrument whose book is one-sided or empty this tick,
`generate_orders` emits nothing (neither market-making nor arbitrage
orders), and `update_historical_data` leaves the mid-price and spread
history unchanged while still appending the tick's total traded volume. -/
theorem one_sided_book_skip (b s : List (ℤ × ℤ)) (h : b = [] ∨ s = [])
    (pricesLen : ℕ) (vol fair : ℚ) (pos limit : ℤ) (hist : Hist) :
    generate_orders b s pricesLen vol fair pos limit = [] ∧
    (update_historical_data hist b s).prices = hist.prices ∧
    (update_historical_data hist b s).spreads = hist.spreads ∧
    (update_historical_data hist b s).volumes
      = hist.volumes ++ [totalVolume b s] := by
  have hguard : maxKeyD b 0 = 0 ∨ minKeyD s 0 = 0 := by
    rcases h with h | h
    · left; rw [h]; rfl
    · right; rw [h]; rfl
  have hneg : ¬ (maxKeyD b 0 ≠ 0 ∧ minKeyD s 0 ≠ 0) := by
    rcases hguard with h0 | h0 <;> simp [h0]
  refine ⟨?_, ?_, ?_, ?_⟩
  · simp only [generate_orders]
    rw [if_pos hguard]
  · simp only [update_historical_data]
    rw [if_neg hneg]
  · simp only [update_historical_data]
    rw [if_neg hneg]
  · simp only [update_historical_data]
    rw [if_neg hneg]

/-- Witness for C4: an empty bid side with a live ask side yields no orders,
while the volume history still records the ask-side volume `4`. -/
theorem one_sided_book_skip_witness :
    generate_orders [] [(11, -4)] 9 1 5 0 20 = [] ∧
    (update_historical_data ⟨[], [], []⟩ [] [(11, -4)]).volumes = [4] := by
  have h := one_sided_book_skip [] [(11, -4)] (Or.inl rfl) 9 1 5 0 20 ⟨[], [], []⟩
  refine ⟨h.1, ?_⟩
  rw [h.2.2.2]
  decide

/-! ## Claim C2: basket replication -/

/-- Claim C2 (amended): whenever all components are resolved,
`calculate_basket_fair_values` overwrites the basket fair values with the
exact linear combinations `6*CROISSANT + 3*JAM + DJEMBE` and
`4*CROISSANT + 2*JAM`; when a component is unavailable the basket entry is
left unchanged (so it stays unset only if it was never set before); other
products are never touched. -/
theorem calculate_basket_fair_values_spec (fv : Pr → Option ℚ) :
    (∀ a b c : ℚ, fv .CROISSANT = some a → fv .JAM = some b →
      fv .DJEMBE = some c →
      calculate_basket_fair_values fv .PICNIC_BASKET1
        = some (6 * a + 3 * b + c)) ∧
    (∀ a b : ℚ, fv .CROISSANT = some a → fv .JAM = some b →
      calculate_basket_fair_values fv .PICNIC_BASKET2 = some (4 * a + 2 * b)) ∧
    (fv .CROISSANT = none ∨ fv .JAM = none ∨ fv .DJEMBE = none →
      calculate_basket_fair_values fv .PICNIC_BASKET1 = fv .PICNIC_BASKET1) ∧
    (fv .CROISSANT = none ∨ fv .JAM = none →
      calculate_basket_fair_values fv .PICNIC_BASKET2 = fv .PICNIC_BASKET2) ∧
    (∀ p : Pr, p ≠ .PICNIC_BASKET1 → p ≠ .PICNIC_BASKET2 →
      calculate_basket_fair_values fv p = fv p) := by
  refine ⟨?_, ?_, ?_, ?_, ?_⟩
  · intro a b c ha hb hc
    simp [calculate_basket_fair_values, ha, hb, hc]
  · intro a b ha hb
    simp [calculate_basket_fair_values, ha, hb]
  · intro h
    rcases h with h | h | h <;>
      cases hc : fv Pr.CROISSANT <;> cases hj : fv Pr.JAM <;>
      cases hd : fv Pr.DJEMBE <;>
      simp_all [calculate_basket_fair_values]
  · intro h
    rcases h with h | h <;>
      cases hc : fv Pr.CROISSANT <;> cases hj : fv Pr.JAM <;>
      simp_all [calculate_basket_fair_values]
  · intro p h1 h2
    cases p <;> simp_all [calculate_basket_fair_values]

/-- Witness for C2: with component fair values `100, 200, 50` the baskets
get exactly `6*100 + 3*200 + 50 = 1250` and `4*100 + 2*200 = 800`. -/
theorem calculate_basket_fair_values_spec_witness :
    calculate_basket_fair_values basket_fv_example .PICNIC_BASKET1
      = some 1250 ∧
    calculate_basket_fair_values basket_fv_example .PICNIC_BASKET2
      = some 800 := by
  have h := calculate_basket_fair_values_spec basket_fv_example
  constructor
  · rw [h.1 100 200 50 rfl rfl rfl]; norm_num
  · rw [h.2.1 100 200 rfl rfl]; norm_num

/-- Counterexample for C2 as frozen: with `CROISSANT` unavailable, the
basket fair value is not "left unset" — a previously assigned value (here
the `999` that `Run2.0.py` `run` would have assigned as the basket's own
VWAP earlier in the same tick) survives the basket-replication step. -/
theorem basket_fair_value_stale_counterexample :
    stale_fv .CROISSANT = none ∧
    calculate_basket_fair_values stale_fv .PICNIC_BASKET1 = some 999 ∧
    calculate_basket_fair_values stale_fv .PICNIC_BASKET1
      ≠ (none : Option ℚ) := by
  refine ⟨rfl, rfl, ?_⟩
  simp [calculate_basket_fair_values, stale_fv]

/-! ## Claim C9: basket arbitrage is detect-only -/

/-- Claim C9: for every fair-value state — in particular whenever a basket
value diverges from its replication value beyond the 0.5% band —
`generate_basket_arbitrage_orders` returns an empty order mapping: both
divergence branches of `Run2.0.py` are `pass`. -/
theorem basket_arbitrage_detect_only (fv : Pr → Option ℚ) :
    generate_basket_arbitrage_orders fv = [] := by
  unfold generate_basket_arbitrage_orders
  cases h1 : fv Pr.PICNIC_BASKET1 <;> cases h2 : fv Pr.CROISSANT <;>
    cases h3 : fv Pr.JAM <;> cases h4 : fv Pr.DJEMBE <;>
    cases h5 : fv Pr.PICNIC_BASKET2 <;>
    simp only [] <;> split_ifs <;> rfl

/-! ## Claim C6: option-decay fair value -/

/-- Counterexample for C6 as frozen: the decay factor is not a monotonically
non-increasing function of remaining time — with less time left (`ts =
400000`, 3 periods remaining, versus `ts = 200000`, 5 remaining) the
`run3.py` fair value is strictly smaller, so decay strictly increases with
remaining time; and `Run7.py` adds a fixed premium of 5, so at zero
intrinsic value (spot = strike = 9500) its fair value is 5, while the
claimed pure product `max(0, mid - strike) * decay` would be 0 for every
decay function. -/
theorem voucher_decay_counterexample :
    run3_time_left 400000 < run3_time_left 200000 ∧
    run3_fair_value 400000 10000 9500 < run3_fair_value 200000 10000 9500 ∧
    run7_calculate_fair_value 9500 9500 1 ≠ 0 := by
  refine ⟨by decide, ?_, ?_⟩
  · norm_num [run3_fair_value, run3_time_left]
  · norm_num [run7_calculate_fair_value]

/-- Claim C6 (amended): in `run3.py`, whenever the underlying has a
priceable mid, the voucher fair value is exactly
`max(0, underlying_mid - strike) * decay(time_left)` with
`time_left = 7 - timestamp div 100000` and `decay(t) = max(0.2, t/7)` a
monotonically non-DEcreasing function of the remaining time (equivalently,
non-increasing in the elapsed timestamp); `Run7.py` additionally adds a
constant premium of 5 on top of its intrinsic-times-time-value product. -/
theorem voucher_fair_value_decay :
    (∀ (ts : ℕ) (rock : ℚ) (strike : ℤ),
      run3_fair_value ts rock strike
        = max 0 (rock - (strike : ℚ)) * decay_of_time_left (run3_time_left ts)) ∧
    (∀ t1 t2 : ℤ, t1 ≤ t2 → decay_of_time_left t1 ≤ decay_of_time_left t2) ∧
    (∀ ts1 ts2 : ℕ, ts1 ≤ ts2 →
      decay_of_time_left (run3_time_left ts2)
        ≤ decay_of_time_left (run3_time_left ts1)) ∧
    (∀ (spot : ℚ) (strike : ℤ) (w : ℚ),
      run7_calculate_fair_value spot strike w
        - max 0 (spot - (strike : ℚ)) * w = 5) := by
  have hmono : ∀ t1 t2 : ℤ, t1 ≤ t2 →
      decay_of_time_left t1 ≤ decay_of_time_left t2 := by
    intro t1 t2 h
    unfold decay_of_time_left
    refine max_le_max le_rfl ?_
    have h' : (t1 : ℚ) ≤ (t2 : ℚ) := by exact_mod_cast h
    linarith
  refine ⟨fun ts rock strike => rfl, hmono, ?_, ?_⟩
  · intro ts1 ts2 h
    refine hmono _ _ ?_
    unfold run3_time_left
    have : ts1 / 100000 ≤ ts2 / 100000 := Nat.div_le_div_right h
    omega
  · intro spot strike w
    unfold run7_calculate_fair_value
    ring

/-- Witness for C6 (amended): concrete instances of the decay monotonicity
(more remaining time gives a weakly larger decay factor) and of the product
form of the `run3.py` fair value. -/
theorem voucher_fair_value_decay_witness :
    decay_of_time_left 3 ≤ decay_of_time_left 5 ∧
    decay_of_time_left (run3_time_left 400000)
      ≤ decay_of_time_left (run3_time_left 200000) ∧
    run3_fair_value 0 10000 9500
      = max 0 ((10000 : ℚ) - (9500 : ℤ)) * decay_of_time_left (run3_time_left 0) :=
  ⟨voucher_fair_value_decay.2.1 3 5 (by decide),
   voucher_fair_value_decay.2.2.1 200000 400000 (by decide),
   voucher_fair_value_decay.1 0 10000 9500⟩

/-! ## Claim C7: history bounds -/

/-- Claim C7 (amended): `Run7.py` `log_price` keeps the mid-price history
capped at the 300 most recent entries with FIFO eviction (the result is the
suffix of the appended sequence, order preserved); `run.py`
`update_historical_data`, by contrast, never truncates: each call grows the
volume history by one, and the mid-price and spread histories by one on
every priced tick. -/
theorem history_bound_spec :
    (∀ (h : List ℚ) (p : ℚ),
      (log_price h p).length = min (h.length + 1) 300) ∧
    (∀ (h : List ℚ) (p : ℚ),
      log_price h p
        = (h ++ [p]).drop (h.length + 1 - min (h.length + 1) 300)) ∧
    (∀ (hist : Hist) (b s : List (ℤ × ℤ)),
      (update_historical_data hist b s).volumes.length
        = hist.volumes.length + 1 ∧
      (update_historical_data hist b s).prices.length
        = hist.prices.length
          + (if maxKeyD b 0 ≠ 0 ∧ minKeyD s 0 ≠ 0 then 1 else 0) ∧
      (update_historical_data hist b s).spreads.length
        = hist.spreads.length
          + (if maxKeyD b 0 ≠ 0 ∧ minKeyD s 0 ≠ 0 then 1 else 0)) := by
  refine ⟨?_, ?_, ?_⟩
  · intro h p
    simp only [log_price]
    split_ifs with hl <;> simp [List.length_append] at hl ⊢ <;> omega
  · intro h p
    simp only [log_price]
    split_ifs with hl
    · simp only [List.length_append, List.length_singleton] at hl ⊢
      have hmin : min (h.length + 1) 300 = 300 := by omega
      rw [hmin]
    · simp only [List.length_append, List.length_singleton] at hl ⊢
      have hmin : h.length + 1 - min (h.length + 1) 300 = 0 := by omega
      rw [hmin, List.drop_zero]
  · intro hist b s
    simp only [update_historical_data]
    split_ifs with hc <;> simp [List.length_append]

/-- Counterexample for C7 as frozen: iterating `run.py`
`update_historical_data` over a fixed two-sided snapshot never evicts
anything — after 301 priced ticks the mid-price history holds 301 entries,
exceeding the claimed fixed window of 300. -/
theorem history_unbounded_counterexample :
    300 < (upd_iter 301).prices.length := by
  have hlen : ∀ n, (upd_iter n).prices.length = n := by
    intro n
    induction n with
    | zero => rfl
    | succ k ih =>
      simp only [upd_iter, update_historical_data]
      rw [if_pos (by decide : maxKeyD [(10, 5)] 0 ≠ 0 ∧ minKeyD [(11, -5)] 0 ≠ 0)]
      simp [List.length_append, ih]
  rw [hlen 301]
  norm_num

/-! ## Claim C1: position-limit safety of generate_orders -/

/-- Counterexample for C1 as frozen: at position 19 with limit 20
(`max_buy = 1`), a tick where both the market-making bid and the
"buy undervalued" arbitrage fire emits two buy orders of total quantity 2;
if both fill, the position becomes 21, past the configured limit 20.  The
aggregate clause of the claim therefore fails. -/
theorem generate_orders_aggregate_counterexample :
    ((generate_orders [(10, 5)] [(11, -5)] 6 (1/10) 12 19 20).map
      (fun o => max o.quantity 0)).sum = 2 ∧
    (20 : ℤ) < 19 + 2 := by
  have e : generate_orders [(10, 5)] [(11, -5)] 6 (1/10) 12 19 20 =
      [Order.mk 11 1, Order.mk 12 (-5), Order.mk 11 1] := by
    norm_num [generate_orders, mm_orders, mm_buy_size, mm_sell_size,
      my_bid_price, my_ask_price, arb_buy_orders, arb_sell_orders,
      maxKeyD, minKeyD, lookupD, pyRound]
    decide
  rw [e]
  norm_num

/-- Claim C1 (amended): with a well-formed book (buy quantities nonnegative,
sell quantities nonpositive) and `max_buy = limit - pos ≥ 0`,
`max_sell = limit + pos ≥ 0`, every single order emitted by
`generate_orders` has magnitude at most `max_buy` (buys) respectively
`max_sell` (sells), so no individual order can push `|pos + fill|` past the
limit.  (The aggregate across the market-making and arbitrage orders of one
tick can still breach the limit — see the counterexample.) -/
theorem generate_orders_per_order_bounds (b s : List (ℤ × ℤ))
    (pricesLen : ℕ) (vol fair : ℚ) (pos limit : ℤ)
    (hbuy : ∀ x ∈ b, 0 ≤ x.2) (hsell : ∀ x ∈ s, x.2 ≤ 0)
    (hmb : 0 ≤ limit - pos) (hms : 0 ≤ limit + pos) :
    ∀ o ∈ generate_orders b s pricesLen vol fair pos limit,
      (0 < o.quantity → o.quantity ≤ limit - pos) ∧
      (o.quantity < 0 → -o.quantity ≤ limit + pos) ∧
      -limit ≤ pos + o.quantity ∧ pos + o.quantity ≤ limit := by
  intro o ho
  simp only [generate_orders] at ho
  by_cases hg : maxKeyD b 0 = 0 ∨ minKeyD s 0 = 0
  · rw [if_pos hg] at ho
    exact absurd ho (List.not_mem_nil o)
  · rw [if_neg hg] at ho
    have key : (0 < o.quantity → o.quantity ≤ limit - pos) ∧
        (o.quantity < 0 → -o.quantity ≤ limit + pos) := by
      rcases List.mem_append.mp ho with h12 | h3
      · rcases List.mem_append.mp h12 with h1 | h2
        · simp only [mm_orders] at h1
          by_cases h5 : 5 < pricesLen
          · rw [if_pos h5] at h1
            rcases List.mem_append.mp h1 with hbo | hso
            · by_cases hb0 : 0 < limit - pos
              · rw [if_pos hb0] at hbo
                have heq := List.mem_singleton.mp hbo
                subst heq
                have hbs := mm_buy_size_bounds hb0
                exact ⟨fun _ => hbs.2,
                  fun hneg => absurd hneg (not_lt.mpr (by linarith [hbs.1]))⟩
              · rw [if_neg hb0] at hbo
                exact absurd hbo (List.not_mem_nil o)
            · by_cases hs0 : 0 < limit + pos
              · rw [if_pos hs0] at hso
                have heq := List.mem_singleton.mp hso
                subst heq
                have hss := mm_sell_size_bounds hs0
                refine ⟨fun hq => ?_, fun _ => ?_⟩
                · exact absurd hq (not_lt.mpr (by
                    show -(mm_sell_size pos limit) ≤ 0
                    linarith [hss.1]))
                · show -(-(mm_sell_size pos limit)) ≤ limit + pos
                  rw [neg_neg]
                  exact hss.2
              · rw [if_neg hs0] at hso
                exact absurd hso (List.not_mem_nil o)
          · rw [if_neg h5] at h1
            exact absurd h1 (List.not_mem_nil o)
        · simp only [arb_buy_orders] at h2
          by_cases hcond : ((minKeyD s 0 : ℤ) : ℚ) < fair * (999/1000)
              ∧ 0 < limit - pos
          · rw [if_pos hcond] at h2
            have heq := List.mem_singleton.mp h2
            subst heq
            refine ⟨fun _ => min_le_right _ _, fun hneg => ?_⟩
            exfalso
            have h1' : (0 : ℤ) ≤ -(lookupD s (minKeyD s 0) 0) :=
              neg_nonneg.mpr (lookupD_nonpos hsell _)
            have h2' : (0 : ℤ)
                ≤ min (-(lookupD s (minKeyD s 0) 0)) (limit - pos) :=
              le_min h1' (le_of_lt hcond.2)
            have hneg' : min (-(lookupD s (minKeyD s 0) 0)) (limit - pos) < 0 :=
              hneg
            linarith
          · rw [if_neg hcond] at h2
            exact absurd h2 (List.not_mem_nil o)
      · simp only [arb_sell_orders] at h3
        by_cases hcond : fair * (1001/1000) < ((maxKeyD b 0 : ℤ) : ℚ)
            ∧ 0 < limit + pos
        · rw [if_pos hcond] at h3
          have heq := List.mem_singleton.mp h3
          subst heq
          refine ⟨fun hq => ?_, fun _ => ?_⟩
          · exfalso
            have h1' : (0 : ℤ) ≤ lookupD b (maxKeyD b 0) 0 :=
              lookupD_nonneg hbuy _
            have h2' : (0 : ℤ)
                ≤ min (lookupD b (maxKeyD b 0) 0) (limit + pos) :=
              le_min h1' (le_of_lt hcond.2)
            have hq' : min (lookupD b (maxKeyD b 0) 0) (limit + pos) < 0 :=
              neg_pos.mp hq
            linarith
          · show -(-(min (lookupD b (maxKeyD b 0) 0) (limit + pos)))
                ≤ limit + pos
            rw [neg_neg]
            exact min_le_right _ _
        · rw [if_neg hcond] at h3
          exact absurd h3 (List.not_mem_nil o)
    have hq1 : o.quantity ≤ limit - pos := by
      rcases le_or_lt o.quantity 0 with h | h
      · omega
      · exact key.1 h
    have hq2 : -(limit + pos) ≤ o.quantity := by
      rcases le_or_lt 0 o.quantity with h | h
      · omega
      · have := key.2 h; omega
    exact ⟨key.1, key.2, by omega, by omega⟩

/-- Witness for C1 (amended): on a concrete well-formed snapshot the single
emitted arbitrage buy of quantity 5 respects `max_buy = 20`. -/
theorem generate_orders_per_order_bounds_witness :
    (Order.mk 11 5) ∈ generate_orders [(10, 5)] [(11, -5)] 0 0 12 0 20 ∧
    (Order.mk 11 5).quantity ≤ 20 - 0 := by
  have hmem : (Order.mk 11 5) ∈ generate_orders [(10, 5)] [(11, -5)] 0 0 12 0 20 := by
    have e : generate_orders [(10, 5)] [(11, -5)] 0 0 12 0 20
        = [Order.mk 11 5] := by
      norm_num [generate_orders, mm_orders, arb_buy_orders, arb_sell_orders,
        maxKeyD, minKeyD, lookupD]
    rw [e]
    exact List.mem_singleton.mpr rfl
  exact ⟨hmem,
    (generate_orders_per_order_bounds [(10, 5)] [(11, -5)] 0 0 12 0 20
      (by decide) (by decide) (by decide) (by decide)
      (Order.mk 11 5) hmem).1 (by decide)⟩

/-! ## Claim C5: inventory throttling -/

/-- Claim C5: on a two-sided book with enough history for market making,
when `pos / limit > 0.6` the emitted market-making buy order (the head of
the order list) has size at most half — integer floor division, minimum
1 — of the unthrottled base size `min(5, max_buy)`, and symmetrically when
`pos / limit < -0.6` the market-making sell order (the second element) is
halved; `run.py` triggers the halving already at ratio 0.5, so it is never
skipped at the claimed 0.6. -/
theorem inventory_throttling (b s : List (ℤ × ℤ)) (pricesLen : ℕ)
    (vol fair : ℚ) (pos limit : ℤ)
    (hbb : maxKeyD b 0 ≠ 0) (hba : minKeyD s 0 ≠ 0)
    (hlen : 5 < pricesLen) (hlim : 0 < limit) :
    (3/5 < (pos : ℚ) / (limit : ℚ) → 0 < limit - pos →
      ∃ o rest, generate_orders b s pricesLen vol fair pos limit = o :: rest ∧
        0 < o.quantity ∧
        o.quantity ≤ max 1 ((min 5 (limit - pos)).fdiv 2)) ∧
    ((pos : ℚ) / (limit : ℚ) < -(3/5) → 0 < limit + pos →
      ∃ o₁ o₂ rest,
        generate_orders b s pricesLen vol fair pos limit = o₁ :: o₂ :: rest ∧
        o₂.quantity < 0 ∧
        -o₂.quantity ≤ max 1 ((min 5 (limit + pos)).fdiv 2)) := by
  have hguard : ¬ (maxKeyD b 0 = 0 ∨ minKeyD s 0 = 0) := by
    push_neg
    exact ⟨hbb, hba⟩
  constructor
  · intro hr hmb
    have hr2 : 1/2 < (pos : ℚ) / (limit : ℚ) := by linarith
    have hbsz : mm_buy_size pos limit
        = max 1 ((min 5 (limit - pos)).fdiv 2) := by
      unfold mm_buy_size
      rw [if_pos hr2]
    refine ⟨Order.mk (my_bid_price fair vol (maxKeyD b 0)) (mm_buy_size pos limit),
      (if 0 < limit + pos then
        [Order.mk (my_ask_price fair vol (minKeyD s 0)) (-(mm_sell_size pos limit))]
       else []) ++
      arb_buy_orders fair (minKeyD s 0) s pos limit ++
      arb_sell_orders fair (maxKeyD b 0) b pos limit, ?_, ?_, ?_⟩
    · simp only [generate_orders, mm_orders]
      rw [if_neg hguard, if_pos hlen, if_pos hmb]
      simp [List.append_assoc]
    · show 0 < mm_buy_size pos limit
      rw [hbsz]
      exact lt_of_lt_of_le zero_lt_one (le_max_left _ _)
    · show mm_buy_size pos limit ≤ max 1 ((min 5 (limit - pos)).fdiv 2)
      rw [hbsz]
  · intro hr hms
    have hrneg : (pos : ℚ) / (limit : ℚ) < -(1/2) := by linarith
    have hrnot : ¬ 1/2 < (pos : ℚ) / (limit : ℚ) := by
      push_neg
      linarith
    have hpos_neg : pos < 0 := by
      by_contra hcon
      push_neg at hcon
      have h0 : (0 : ℚ) ≤ (pos : ℚ) / (limit : ℚ) :=
        div_nonneg (by exact_mod_cast hcon)
          (le_of_lt (by exact_mod_cast hlim))
      linarith
    have hmb : 0 < limit - pos := by omega
    have hssz : mm_sell_size pos limit
        = max 1 ((min 5 (limit + pos)).fdiv 2) := by
      unfold mm_sell_size
      rw [if_pos ⟨hrnot, hrneg⟩]
    have hs1 : (1 : ℤ) ≤ mm_sell_size pos limit := by
      rw [hssz]
      exact le_max_left _ _
    refine ⟨Order.mk (my_bid_price fair vol (maxKeyD b 0)) (mm_buy_size pos limit),
      Order.mk (my_ask_price fair vol (minKeyD s 0)) (-(mm_sell_size pos limit)),
      arb_buy_orders fair (minKeyD s 0) s pos limit ++
      arb_sell_orders fair (maxKeyD b 0) b pos limit, ?_, ?_, ?_⟩
    · simp only [generate_orders, mm_orders]
      rw [if_neg hguard, if_pos hlen, if_pos hmb, if_pos hms]
      simp [List.append_assoc]
    · show -(mm_sell_size pos limit) < 0
      linarith
    · show -(-(mm_sell_size pos limit)) ≤ max 1 ((min 5 (limit + pos)).fdiv 2)
      rw [neg_neg, hssz]

/-- Witness for C5: position 13 of limit 20 (ratio 0.65 > 0.6) on a
two-sided book with 6 stored mid-prices — the head market-making buy is
throttled to at most `max(1, min(5, 7) // 2)`. -/
theorem inventory_throttling_witness :
    ∃ o rest, generate_orders [(10, 5)] [(11, -5)] 6 0 10 13 20 = o :: rest ∧
      0 < o.quantity ∧
      o.quantity ≤ max 1 ((min 5 ((20 : ℤ) - 13)).fdiv 2) :=
  (inventory_throttling [(10, 5)] [(11, -5)] 6 0 10 13 20
    (by decide) (by decide) (by decide) (by decide)).1
    (by norm_num) (by decide)

/-! ## Claim C10: run5 level-walking position invariant -/

theorem sumQ_nil : sumQ [] = 0 := rfl

theorem sumQ_cons (o : Order) (l : List Order) :
    sumQ (o :: l) = o.quantity + sumQ l := by
  simp [sumQ]

theorem sumQ_append (l1 l2 : List Order) :
    sumQ (l1 ++ l2) = sumQ l1 + sumQ l2 := by
  simp [sumQ]

theorem run5_buy_walk_snd (fair margin : ℚ) (limit : ℤ) :
    ∀ (asks : List (ℤ × ℤ)) (pos : ℤ),
      (run5_buy_walk fair margin limit asks pos).2
        = pos + sumQ (run5_buy_walk fair margin limit asks pos).1 := by
  intro asks
  induction asks with
  | nil => intro pos; simp [run5_buy_walk, sumQ]
  | cons hd tl ih =>
    intro pos
    obtain ⟨a, q⟩ := hd
    simp only [run5_buy_walk]
    split_ifs with hbrk hvol
    · simp [sumQ]
    · simp only [sumQ_cons]
      rw [ih (pos + min (limit - pos) (-q))]
      ring
    · exact ih pos

theorem run5_sell_walk_snd (fair margin : ℚ) (limit : ℤ) :
    ∀ (bids : List (ℤ × ℤ)) (pos : ℤ),
      (run5_sell_walk fair margin limit bids pos).2
        = pos + sumQ (run5_sell_walk fair margin limit bids pos).1 := by
  intro bids
  induction bids with
  | nil => intro pos; simp [run5_sell_walk, sumQ]
  | cons hd tl ih =>
    intro pos
    obtain ⟨a, q⟩ := hd
    simp only [run5_sell_walk]
    split_ifs with hbrk hvol
    · simp [sumQ]
    · simp only [sumQ_cons]
      rw [ih (pos - min (limit + pos) q)]
      ring
    · exact ih pos

theorem run5_buy_walk_take_bounds (fair margin : ℚ) (limit : ℤ) :
    ∀ (asks : List (ℤ × ℤ)) (pos : ℤ), -limit ≤ pos → pos ≤ limit →
      ∀ n : ℕ,
        -limit ≤ pos + sumQ ((run5_buy_walk fair margin limit asks pos).1.take n) ∧
        pos + sumQ ((run5_buy_walk fair margin limit asks pos).1.take n) ≤ limit := by
  intro asks
  induction asks with
  | nil =>
    intro pos h1 h2 n
    simp only [run5_buy_walk, List.take_nil, sumQ_nil, add_zero]
    exact ⟨h1, h2⟩
  | cons hd tl ih =>
    intro pos h1 h2 n
    obtain ⟨a, q⟩ := hd
    simp only [run5_buy_walk]
    split_ifs with hbrk hvol
    · simp only [List.take_nil, sumQ_nil, add_zero]
      exact ⟨h1, h2⟩
    · have hvle : min (limit - pos) (-q) ≤ limit - pos := min_le_left _ _
      have h1' : -limit ≤ pos + min (limit - pos) (-q) := by linarith
      have h2' : pos + min (limit - pos) (-q) ≤ limit := by linarith
      cases n with
      | zero =>
        simp only [List.take_zero, sumQ_nil, add_zero]
        exact ⟨h1, h2⟩
      | succ m =>
        have hrec := ih (pos + min (limit - pos) (-q)) h1' h2' m
        simp only [List.take_succ_cons, sumQ_cons]
        constructor
        · linarith [hrec.1]
        · linarith [hrec.2]
    · exact ih pos h1 h2 n

theorem run5_sell_walk_take_bounds (fair margin : ℚ) (limit : ℤ) :
    ∀ (bids : List (ℤ × ℤ)) (pos : ℤ), -limit ≤ pos → pos ≤ limit →
      ∀ n : ℕ,
        -limit ≤ pos + sumQ ((run5_sell_walk fair margin limit bids pos).1.take n) ∧
        pos + sumQ ((run5_sell_walk fair margin limit bids pos).1.take n) ≤ limit := by
  intro bids
  induction bids with
  | nil =>
    intro pos h1 h2 n
    simp only [run5_sell_walk, List.take_nil, sumQ_nil, add_zero]
    exact ⟨h1, h2⟩
  | cons hd tl ih =>
    intro pos h1 h2 n
    obtain ⟨a, q⟩ := hd
    simp only [run5_sell_walk]
    split_ifs with hbrk hvol
    · simp only [List.take_nil, sumQ_nil, add_zero]
      exact ⟨h1, h2⟩
    · have hvle : min (limit + pos) q ≤ limit + pos := min_le_left _ _
      have h1' : -limit ≤ pos - min (limit + pos) q := by linarith
      have h2' : pos - min (limit + pos) q ≤ limit := by linarith
      cases n with
      | zero =>
        simp only [List.take_zero, sumQ_nil, add_zero]
        exact ⟨h1, h2⟩
      | succ m =>
        have hrec := ih (pos - min (limit + pos) q) h1' h2' m
        simp only [List.take_succ_cons, sumQ_cons]
        constructor
        · linarith [hrec.1]
        · linarith [hrec.2]
    · exact ih pos h1 h2 n

/-- Claim C10: in the level-walking voucher variant (`run5.py`), the buy
and sell loops update a simulated position after each emitted order, so for
every prefix of the emitted order list the initial position plus the
prefix-sum of order quantities stays within `[-limit, limit]`; in
particular, even if every emitted order fully fills, the aggregate of
same-tick orders for one voucher cannot breach its position limit. -/
theorem run5_prefix_position_within_limit (fair margin : ℚ) (limit pos : ℤ)
    (asks bids : List (ℤ × ℤ)) (h1 : -limit ≤ pos) (h2 : pos ≤ limit)
    (n : ℕ) :
    -limit ≤ pos
      + sumQ ((run5_voucher_orders fair margin limit asks bids pos).take n) ∧
    pos + sumQ ((run5_voucher_orders fair margin limit asks bids pos).take n)
      ≤ limit := by
  unfold run5_voucher_orders
  rcases le_or_lt n (run5_buy_walk fair margin limit asks pos).1.length
    with hn | hn
  · rw [List.take_append_of_le_length hn]
    exact run5_buy_walk_take_bounds fair margin limit asks pos h1 h2 n
  · have hfull := run5_buy_walk_take_bounds fair margin limit asks pos h1 h2
      (run5_buy_walk fair margin limit asks pos).1.length
    rw [List.take_length] at hfull
    have hsnd := run5_buy_walk_snd fair margin limit asks pos
    have hsell := run5_sell_walk_take_bounds fair margin limit bids
      (run5_buy_walk fair margin limit asks pos).2
      (by rw [hsnd]; exact hfull.1) (by rw [hsnd]; exact hfull.2)
      (n - (run5_buy_walk fair margin limit asks pos).1.length)
    rw [hsnd] at hsell
    rw [List.take_append_eq_append_take,
      List.take_of_length_le (le_of_lt hn), sumQ_append, hsnd]
    constructor
    · linarith [hsell.1]
    · linarith [hsell.2]

/-- Witness for C10: a concrete voucher book walk (limit 200, start flat)
whose first emitted order keeps the optimistic position within the limit. -/
theorem run5_prefix_position_within_limit_witness :
    -200 ≤ (0 : ℤ)
      + sumQ ((run5_voucher_orders 100 (3/2) 200 [(90, -50)] [(80, 30)] 0).take 1) ∧
    (0 : ℤ)
      + sumQ ((run5_voucher_orders 100 (3/2) 200 [(90, -50)] [(80, 30)] 0).take 1)
      ≤ 200 :=
  run5_prefix_position_within_limit 100 (3/2) 200 0 [(90, -50)] [(80, 30)]
    (by decide) (by decide) 1

/-! ## Claim C8: recency-weighted fair value -/

theorem sum_map_div (l : List ℝ) (S : ℝ) :
    (l.map (fun w => w / S)).sum = l.sum / S := by
  induction l with
  | nil => simp
  | cons a t ih => simp [ih, add_div]

theorem dotR_replicate (xs : List ℝ) (c : ℝ) :
    dotR xs (List.replicate xs.length c) = xs.sum * c := by
  induction xs with
  | nil => simp [dotR]
  | cons a t ih =>
    simp only [List.length_cons, List.replicate_succ, dotR,
      List.zip_cons_cons, List.map_cons, List.sum_cons] at ih ⊢
    rw [ih]
    ring

/-- Counterexample for C8 as frozen: `run.py` has no uniform-weights branch
below 5 observations — with the two stored mid-prices `[0, 2]` its
recency-weighted fair value is `2e/(1+e) ≈ 1.46`, not the uniform mean
`(0+2)/2 = 1` that the claim requires for fewer than 5 observations. -/
theorem recency_weights_counterexample :
    run_calculate_bananas_fair_value [0, 2] 0 ≠ ((0 : ℝ) + 2) / 2 := by
  have he : (1 : ℝ) < Real.exp 1 := by
    have h0 := Real.exp_lt_exp.mpr (zero_lt_one : (0 : ℝ) < 1)
    rwa [Real.exp_zero] at h0
  have hS : (0 : ℝ) < 1 + Real.exp 1 := by positivity
  have hlist : linspaceQ 0 1 ([(0 : ℝ), 2].length) = [0, 1] := by
    norm_num [linspaceQ, List.range_succ]
  have hval : run_calculate_bananas_fair_value [0, 2] 0
      = 2 * (Real.exp 1 / (1 + Real.exp 1)) := by
    simp only [run_calculate_bananas_fair_value]
    rw [if_neg (by simp : ¬ ([(0 : ℝ), 2] : List ℝ) = [])]
    rw [hlist]
    norm_num [dotR, Real.exp_zero]
  rw [hval]
  intro h
  field_simp [hS.ne'] at h
  linarith

/-- Claim C8 (amended): in `Run2.0.py`, with fewer than 5 stored mid-prices
the fair value is the uniform average of the history; in `run.py` the fair
value is, for every non-empty history length, the dot product of the stored
mid-prices with a strictly positive weight vector normalized to sum to 1
(the exponential curve `exp(linspace(0, 1, n))` — there is no uniform
fallback below 5 observations in that file). -/
theorem recency_weighted_fair_value :
    (∀ (prices : List ℝ) (fb : ℝ), prices ≠ [] → prices.length < 5 →
      run2_calculate_bananas_fair_value prices fb
        = prices.sum / prices.length) ∧
    (∀ (prices : List ℝ) (fb : ℝ), prices ≠ [] →
      ∃ w : List ℝ, w.length = prices.length ∧ w.sum = 1 ∧
        (∀ x ∈ w, 0 < x) ∧
        run_calculate_bananas_fair_value prices fb = dotR prices w) := by
  constructor
  · intro prices fb hne hlt
    simp only [run2_calculate_bananas_fair_value]
    rw [if_neg hne, if_pos hlt, List.sum_replicate, List.map_replicate]
    rw [nsmul_eq_mul, mul_one, dotR_replicate, mul_one_div]
  · intro prices fb hne
    have hn : 0 < prices.length := List.length_pos.mpr hne
    have hwlen : ((linspaceQ 0 1 prices.length).map
        (fun x : ℚ => Real.exp (x : ℝ))).length = prices.length := by
      simp only [List.length_map, linspaceQ, List.length_range]
    have hwpos : ∀ x ∈ (linspaceQ 0 1 prices.length).map
        (fun x : ℚ => Real.exp (x : ℝ)), 0 < x := by
      intro x hx
      obtain ⟨y, _, rfl⟩ := List.mem_map.mp hx
      exact Real.exp_pos _
    have hwne : (linspaceQ 0 1 prices.length).map
        (fun x : ℚ => Real.exp (x : ℝ)) ≠ [] := by
      intro hcon
      rw [← List.length_eq_zero] at hcon
      rw [hwlen] at hcon
      omega
    have hS : 0 < ((linspaceQ 0 1 prices.length).map
        (fun x : ℚ => Real.exp (x : ℝ))).sum :=
      List.sum_pos _ hwpos hwne
    refine ⟨((linspaceQ 0 1 prices.length).map (fun x : ℚ => Real.exp (x : ℝ))).map
        (fun w => w / ((linspaceQ 0 1 prices.length).map
          (fun x : ℚ => Real.exp (x : ℝ))).sum), ?_, ?_, ?_, ?_⟩
    · simp only [List.length_map, linspaceQ, List.length_range]
    · rw [sum_map_div, div_self (ne_of_gt hS)]
    · intro x hx
      obtain ⟨y, hy, rfl⟩ := List.mem_map.mp hx
      exact div_pos (hwpos y hy) hS
    · simp only [run_calculate_bananas_fair_value]
      rw [if_neg hne]

/-- Witness for C8 (amended): two stored mid-prices `[1, 3]` in the Run2.0
variant give the uniform average `2`. -/
theorem recency_weighted_fair_value_witness :
    run2_calculate_bananas_fair_value [1, 3] 0 = 2 := by
  have h := recency_weighted_fair_value.1 [1, 3] 0 (by simp) (by simp)
  rw [h]
  norm_num
